import Mathlib

/-!
Verification of the scheduling and dependency-graph engine of the
rolldown/rollup workspace build orchestrator.

The definitions below are a shallow embedding of the TypeScript sources:
packages are identified by their index in a list (object identity of the
`Package` instances), the `WeakSet` colorings of the depth-first traversal in
`Dispatcher.run` become lists of indices, and the mutable closure variables
`cycleStart`/`cycleInfo` become fields of an explicit state record.  The
recursion of `visit` is made total with a fuel parameter that strictly
decreases at every call; `runFuel` below is proved large enough that the fuel
never runs out on well-formed graphs.
-/

namespace RolldownWS

/-- A workspace package as seen by the scheduler: its declared name and the
`downstreamDependencies` adjacency list (indices of the packages it depends
on).  Mirrors the `Package` objects consumed by `Dispatcher.run`. -/
structure Pkg where
  name : String
  downstream : List Nat
deriving DecidableEq

/-- `pkg.downstreamDependencies` of the package with index `p`. -/
def downs (g : List Pkg) (p : Nat) : List Nat :=
  ((g[p]?).map Pkg.downstream).getD []

/-- `pkg.declaration.name` of the package with index `p`. -/
def nameOf (g : List Pkg) (p : Nat) : String :=
  ((g[p]?).map Pkg.name).getD ""

/-- Largest out-degree in the graph (used only to size the fuel). -/
def maxDeg (g : List Pkg) : Nat :=
  g.foldr (fun p acc => max p.downstream.length acc) 0

/-- The graph is well-formed: every dependency edge points at a package of the
list.  In the source this holds by construction, since the adjacency lists
hold references to `Package` objects of the same workspace. -/
def Wf (g : List Pkg) : Prop :=
  ∀ p ∈ g, ∀ d ∈ p.downstream, d < g.length

/-- Reachability along `downstreamDependencies` edges. -/
def Reaches (g : List Pkg) : Nat → Nat → Prop :=
  Relation.ReflTransGen (fun a b => b ∈ downs g a)

/-- The mutable state of the depth-first traversal in `Dispatcher.run`:
the `visited` and `visiting` WeakSets, the `packageEntires` array of
`{ pkg, priority }` records, and the closure variables `cycleStart` and
`cycleInfo`. -/
structure VisitSt where
  visited : List Nat
  visiting : List Nat
  entries : List (Nat × Nat)
  cycleStart : Option Nat
  cycleInfo : String

def initSt : VisitSt := ⟨[], [], [], none, ""⟩

/-- Errors escaping the traversal: the `dependency cycle [-> … ->]` `Error`
thrown by `visit`, or exhaustion of the artificial fuel (never reached for
well-formed inputs, see `visitT_no_fuelOut`). -/
inductive RunErr where
  | fuelOut
  | dependencyCycle (msg : String)
deriving DecidableEq

/-- A pending recursive computation of the traversal: `visit(pkg, priority)`
itself, or the remainder of its `for (const dep of …)` loop. -/
inductive Task where
  | one (pkg prio : Nat)
  | many (ds : List Nat) (prio : Nat)

/-- The `visit` closure of `Dispatcher.run` (identical in both dispatcher
variants).  Returns `true`/`false` exactly as the source does, threads the
state, and throws the cycle error when the unwinding reaches `cycleStart`. -/
def visitT (g : List Pkg) : Nat → Task → VisitSt → Except RunErr (Bool × VisitSt)
  | 0, _, _ => .error .fuelOut
  | fuel + 1, .one pkg prio, s =>
    if pkg ∈ s.visited then
      .ok (true, s)
    else if pkg ∈ s.visiting then
      .ok (false, { s with cycleStart := some pkg, cycleInfo := nameOf g pkg })
    else
      match visitT g fuel (.many (downs g pkg) (prio + 1))
          { s with visiting := pkg :: s.visiting } with
      | .error e => .error e
      | .ok (true, s2) =>
        .ok (true, { s2 with
          visiting := s2.visiting.erase pkg,
          visited := pkg :: s2.visited,
          entries := s2.entries ++ [(pkg, prio)] })
      | .ok (false, s2) =>
        if s2.cycleStart = some pkg then
          .error (.dependencyCycle ("dependency cycle [-> " ++ s2.cycleInfo ++ " ->]"))
        else
          .ok (false, { s2 with cycleInfo := s2.cycleInfo ++ " -> " ++ nameOf g pkg })
  | _ + 1, .many [] _, s => .ok (true, s)
  | fuel + 1, .many (d :: ds) prio, s =>
    match visitT g fuel (.one d prio) s with
    | .error e => .error e
    | .ok (false, s2) => .ok (false, s2)
    | .ok (true, s2) => visitT g fuel (.many ds prio) s2

/-- Fuel passed to every top-level `visit` call; `visitT_no_fuelOut` shows it
suffices. -/
def runFuel (g : List Pkg) : Nat :=
  1 + g.length * (maxDeg g + 2)

/-- `packages.forEach(visit)`: note that `Array.prototype.forEach` invokes the
callback with `(element, index, array)`, so the element index — not the
declared default `0` — becomes the starting `priority` of each top-level
visit. -/
def gatherGo (g : List Pkg) : List Nat → Nat → VisitSt → Except RunErr VisitSt
  | [], _, s => .ok s
  | p :: ps, i, s =>
    match visitT g (runFuel g) (.one p i) s with
    | .error e => .error e
    | .ok (_, s2) => gatherGo g ps (i + 1) s2

/-- The `packageEntires` array after the whole traversal. -/
def gatherEntries (g : List Pkg) (req : List Nat) : Except RunErr (List (Nat × Nat)) :=
  (gatherGo g req 0 initSt).map VisitSt.entries

/-- Stable insertion used to model `Array.prototype.sort` with comparator
`(a, b) => b.priority - a.priority`.  `Array.prototype.sort` is stable, and a
stable sort for a total preorder has a unique result, so this insertion sort
is observationally the engine's sort. -/
def insertDesc (e : Nat × Nat) : List (Nat × Nat) → List (Nat × Nat)
  | [] => [e]
  | x :: xs => if x.2 ≤ e.2 then e :: x :: xs else x :: insertDesc e xs

def sortDesc : List (Nat × Nat) → List (Nat × Nat)
  | [] => []
  | x :: xs => insertDesc x (sortDesc xs)

/-- The schedule produced by `Dispatcher.run`: traversal entries, sorted by
descending priority with a stable tie-break. -/
def schedule (g : List Pkg) (req : List Nat) : Except RunErr (List (Nat × Nat)) :=
  (gatherEntries g req).map sortDesc

instance {ε α : Type} [DecidableEq ε] [DecidableEq α] : DecidableEq (Except ε α) := fun a b =>
  match a, b with
  | .error e1, .error e2 =>
    if h : e1 = e2 then .isTrue (by rw [h]) else .isFalse (by intro hc; cases hc; exact h rfl)
  | .ok v1, .ok v2 =>
    if h : v1 = v2 then .isTrue (by rw [h]) else .isFalse (by intro hc; cases hc; exact h rfl)
  | .error _, .ok _ => .isFalse (by intro hc; cases hc)
  | .ok _, .error _ => .isFalse (by intro hc; cases hc)

/-! ## One-shot build execution

Models of `Dispatcher.build` in the two dispatcher variants, together with the
status-reporter calls made by `Builder.build`.  Build success or failure of the
external bundler is an oracle `outcomes : Nat → Bool` indexed by package;
the activity token's state at the `k`-th loop iteration is an oracle
`act : Nat → Bool`. -/

/-- Status-reporter notifications observable during a run. -/
inductive BEv where
  | started (p : Nat)
  | succeeded (p : Nat)
  | failed (p : Nat)
  | errorLogged (p : Nat)
deriving DecidableEq

/-- Errors escaping a one-shot run. -/
inductive RunFail where
  | scheduleFailed (e : RunErr)
  | aborted
  | buildFailed (p : Nat)
deriving DecidableEq

/-- `Activity.ensureActive()`: throws `AbortError` exactly when the token is no
longer active. -/
def ensureActive (isActive : Bool) : Except RunFail Unit :=
  if isActive then .ok () else .error .aborted

/-- The rolldown-variant `Builder.build` (the one paired with the
`ensureActive` dispatcher): reports the build start, then either reports
success, or reports the failure, logs it, and **rethrows** the exception. -/
def builder005 (p : Nat) (ok : Bool) : List BEv × Option RunFail :=
  if ok then ([.started p, .succeeded p], none)
  else ([.started p, .failed p, .errorLogged p], some (.buildFailed p))

/-- The rolldown-variant one-shot loop of `Dispatcher.build`: for each target,
`main.ensureActive()` then `await target.builder.build(main)`, with no `catch`
around the loop body. -/
def dispatch005 (outcomes act : Nat → Bool) :
    List (Nat × Nat) → Nat → List BEv × Except RunFail Unit
  | [], _ => ([], .ok ())
  | (p, _) :: rest, k =>
    match ensureActive (act k) with
    | .error e => ([], .error e)
    | .ok _ =>
      match builder005 p (outcomes p) with
      | (evs, some e) => (evs, .error e)
      | (evs, none) =>
        let r := dispatch005 outcomes act rest (k + 1)
        (evs ++ r.1, r.2)

/-- The rollup-variant `Builder.build`: the whole build body is wrapped in
`try … catch` which reports the failure, logs it, and swallows the exception —
the method never throws. -/
def builder013 (p : Nat) (ok : Bool) : List BEv :=
  .started p :: (if ok then [.succeeded p] else [.failed p, .errorLogged p])

/-- The rollup-variant one-shot loop of `Dispatcher.build`: a single
`signal.throwIfAborted()` before the loop (modelled by `preAborted`), then
`await entry.builder.build(call, signal)` for every entry. -/
def dispatch006 (outcomes : Nat → Bool) (preAborted : Bool) (es : List (Nat × Nat)) :
    List BEv × Except RunFail Unit :=
  if preAborted then ([], .error .aborted)
  else (es.flatMap (fun e => builder013 e.1 (outcomes e.1)), .ok ())

/-- The whole rolldown-variant one-shot pipeline of `Dispatcher.run`: compute
the schedule (which throws on a dependency cycle, before any build starts),
then run the build loop over it. -/
def oneShot (g : List Pkg) (req : List Nat) (outcomes act : Nat → Bool) :
    List BEv × Except RunFail Unit :=
  match schedule g req with
  | .error e => ([], .error (.scheduleFailed e))
  | .ok es => dispatch005 outcomes act es 0

/-! ## Watch mode: pending queue and debounce

Models of `Dispatcher.enqueue` and of the `startWatching` change callback of
the rollup-variant dispatcher.  A queue entry (a `BuilderEntry` object) is
modelled as a pair of an identity and its priority; the `other === entry`
object-identity test becomes equality of pairs. -/

/-- A `BuilderEntry` in the pending queue: `(identity, priority)`. -/
abbrev QEntry := Nat × Nat

/-- `Dispatcher.enqueue`: scan the queue; stop unchanged on finding the same
entry; insert before the first entry of strictly lower priority; otherwise
keep scanning. -/
def enqueue (e : QEntry) : List QEntry → List QEntry
  | [] => [e]
  | o :: rest =>
    if o = e then o :: rest
    else if o.2 < e.2 then e :: o :: rest
    else o :: enqueue e rest

/-- Queue invariant: priorities are in descending (non-increasing) order. -/
def QSorted (q : List QEntry) : Prop :=
  List.Pairwise (fun a b : QEntry => b.2 ≤ a.2) q

instance (q : List QEntry) : Decidable (QSorted q) := by
  unfold QSorted; infer_instance

/-- Events affecting one unit's debounce state in watch mode: a change
notification from its watcher, or the firing of the debounce timer. -/
inductive WEvent where
  | notify
  | fire

/-- The watch-mode state relevant to one unit: its `isDirty` flag, the number
of outstanding `setTimeout(this.enqueue, DEBOUNCE_MS, entry)` timers, and the
pending queue. -/
structure WatchSt where
  isDirty : Bool
  timers : Nat
  queue : List QEntry

/-- One step of the rollup-variant watch machinery for unit `e`: the
`startWatching` callback returns immediately when `isDirty` is already set,
otherwise sets it and arms the debounce timer; a firing timer runs
`this.enqueue(entry)`. -/
def watchStep (e : QEntry) (s : WatchSt) : WEvent → WatchSt
  | .notify =>
    if s.isDirty then s
    else { s with isDirty := true, timers := s.timers + 1 }
  | .fire =>
    match s.timers with
    | 0 => s
    | t + 1 => { s with timers := t, queue := enqueue e s.queue }

def watchRun (e : QEntry) (s : WatchSt) (evs : List WEvent) : WatchSt :=
  evs.foldl (watchStep e) s

/-! ## Workspace graph construction

Model of the dependency-graph loop at the end of `Workspace.discover`
(identical in both workspace variants).  A member manifest is its declared
name plus the map `declaration[depKind][name]` of dependency references; the
member set is a list in `Set` insertion order. -/

inductive DependencyKind where
  | runtime
  | development
  | peer
  | optional
deriving DecidableEq

/-- A member's manifest as consulted by the graph loop. -/
structure Manifest where
  name : String
  deps : DependencyKind → String → Option String

/-- JavaScript truthiness of the reference string in `if (ref && …)`:
`undefined` and the empty string are falsy. -/
def truthy (r : String) : Bool := r ≠ ""

/-- The default workspace-local filter `ref => ref.startsWith("workspace:")`,
phrased on the character lists so that it evaluates by `decide`. -/
def refFilterDefault (r : String) : Bool := "workspace:".data.isPrefixOf r.data

def followDefault : List DependencyKind := [.runtime, .development, .peer]

def emptyManifest : Manifest := ⟨"", fun _ _ => none⟩

/-- The dependency kinds under which member `up` references member `down` with
a truthy reference accepted by the workspace-local filter: each of them pushes
one edge in the triple `forEach` loop. -/
def edgeKinds (follow : List DependencyKind) (filter : String → Bool)
    (up down : Manifest) : List DependencyKind :=
  follow.filter (fun k =>
    match up.deps k down.name with
    | some r => truthy r && filter r
    | none => false)

/-- `downstreamDependencies` of member `i` after the graph loop: for each
member `j` (in insertion order) and each matching dependency kind (in
`followDeps` order), `j` is pushed once.  Note the loop never compares
`upstream` with `downstream`, so `j = i` is treated like any other member. -/
def downstreamOf (ms : List Manifest) (follow : List DependencyKind)
    (filter : String → Bool) (i : Nat) : List Nat :=
  (List.range ms.length).flatMap (fun j =>
    (edgeKinds follow filter (ms.getD i emptyManifest) (ms.getD j emptyManifest)).map
      (fun _ => j))

/-- `upstreamDependents` of member `j` after the graph loop. -/
def upstreamOf (ms : List Manifest) (follow : List DependencyKind)
    (filter : String → Bool) (j : Nat) : List Nat :=
  (List.range ms.length).flatMap (fun i =>
    (edgeKinds follow filter (ms.getD i emptyManifest) (ms.getD j emptyManifest)).map
      (fun _ => i))

/-- The scheduler's view of the discovered workspace: one `Pkg` per member
with the adjacency produced by the graph loop. -/
def graphOf (ms : List Manifest) (follow : List DependencyKind)
    (filter : String → Bool) : List Pkg :=
  (List.range ms.length).map (fun i =>
    ⟨(ms.getD i emptyManifest).name, downstreamOf ms follow filter i⟩)

/-! ## Manifest parsing and shape validation

Model of the `JSON.parse` + guard section of `Package.discover`.  A manifest
file's text either fails to parse (`none`) or yields a JSON value. -/

inductive Json where
  | null
  | bool (b : Bool)
  | num (n : Int)
  | str (s : String)
  | arr (elems : List Json)
  | obj (fields : List (String × Json))

/-- `isObject`: `value !== null && typeof value === "object"` — true for JSON
objects and arrays. -/
def isObject : Json → Bool
  | .obj _ => true
  | .arr _ => true
  | _ => false

/-- Property access `declaration[key]`; `none` models `undefined`. -/
def getField : Json → String → Option Json
  | .obj fields, key => fields.lookup key
  | _, _ => none

/-- `isString` applied to a possibly-`undefined` value. -/
def isStringJ : Option Json → Bool
  | some (.str _) => true
  | _ => false

/-- `isArrayOf(value, isString)`:
`Array.isArray(value) && (value.length === 0 || guard(value[0]))` — only the
FIRST element is ever passed to the guard. -/
def isArrayOfString : Json → Bool
  | .arr [] => true
  | .arr (x :: _) =>
    match x with
    | .str _ => true
    | _ => false
  | _ => false

/-- Errors of one `Package.discover` call. -/
inductive ManifestErr where
  | parseError
  | notObject
  | nameNotString
  | workspacesNotStrings
  | ambiguousBuildConfig
  | fsError
deriving DecidableEq

/-- The spec's error taxonomy groups `notObject`, `nameNotString` and
`workspacesNotStrings` as ManifestShapeError-class failures. -/
def isShapeErr : ManifestErr → Bool
  | .notObject => true
  | .nameNotString => true
  | .workspacesNotStrings => true
  | _ => false

/-- Parse-and-validate section of `Package.discover`: `JSON.parse` (`none`
models malformed text), then the `isObject`, `name` and `workspaces` guards in
source order. -/
def validateDecl : Option Json → Except ManifestErr Json
  | none => .error .parseError
  | some j =>
    if !isObject j then .error .notObject
    else if !isStringJ (getField j "name") then .error .nameNotString
    else
      match getField j "workspaces" with
      | some w => if !isArrayOfString w then .error .workspacesNotStrings else .ok j
      | none => .ok j

/-! ## Package discovery and its cache

Model of the directory walk of `Package.discover` with its `Package.cache`.
A directory is its list of path segments from the filesystem root (so the
root is `[]` and `path.join(cwd, "..")` is `dropLast`); `cwd.startsWith(jail)`
becomes segment-list prefixing. -/

/-- Outcome of `fs.readFile(dir + "/package.json")`: missing file, another I/O
error, or the file's parsed content (`none` = malformed JSON). -/
inductive FileRead where
  | enoent
  | ioErr
  | found (content : Option Json)

/-- The filesystem as consulted by one `Package.discover` call: the
`package.json` of each directory and the matches of the build-config glob in
each directory. -/
structure FsModel where
  readPkgJson : List String → FileRead
  glob : List String → List String

/-- A resolved `Package`: its directory, raw declaration and optional build
config path (kept as the glob hint). -/
structure PkgR where
  directory : List String
  decl : Json
  buildConfigPath : Option String

/-- `Package.cache`, a `Map<string, Package | null>` modelled as an
association list with first-match lookup; `set` prepends. -/
def Cache := List (List String × Option PkgR)

def cacheGet (c : Cache) (d : List String) : Option (Option PkgR) :=
  List.lookup d c

/-- The `finally` block: `visitedDirs.forEach(dir => cache.set(dir, cacheEntry))`. -/
def writeBack (visited : List (List String)) (v : Option PkgR) (c : Cache) : Cache :=
  visited.foldl (fun acc d => (d, v) :: acc) c

/-- Outcome of the upward walk loop of `Package.discover`. -/
inductive WalkOut where
  | cached (v : Option PkgR)
  | found (dir : List String) (content : Option Json)
  | nothing
  | fsFailed

/-- The `while (cwd.startsWith(jail) && ++depth < 128)` walk: check the cache,
record the directory in `visitedDirs`, try to read `package.json` (continuing
on ENOENT), and stop at the jail, the filesystem root, or the depth bound.
Returns the outcome together with `visitedDirs`. -/
def walk (fs : FsModel) (jail : List String) (cache : Cache) :
    Nat → List String → List (List String) → WalkOut × List (List String)
  | 0, _, visited => (.nothing, visited)
  | fuel + 1, cwd, visited =>
    if jail.isPrefixOf cwd then
      match cacheGet cache cwd with
      | some v => (.cached v, visited)
      | none =>
        let visited2 := visited ++ [cwd]
        match fs.readPkgJson cwd with
        | .found content => (.found cwd content, visited2)
        | .ioErr => (.fsFailed, visited2)
        | .enoent =>
          if cwd.dropLast = cwd then (.nothing, visited2)
          else walk fs jail cache fuel cwd.dropLast visited2
    else (.nothing, visited)

/-- Result of one `Package.discover` call: its return value (or error), the
`visitedDirs` list, and the cache as left by the `finally` block. -/
structure DiscOut where
  res : Except ManifestErr (Option PkgR)
  visited : List (List String)
  cache : Cache

/-- `Package.discover`: walk up from `cwd`, then parse, validate and search
for the build config; whatever happens, the `finally` block writes
`cacheEntry` (still `null` unless the success `return` was reached) for every
visited directory. -/
def discover (fs : FsModel) (jail : List String) (cache : Cache)
    (cwd : List String) : DiscOut :=
  match walk fs jail cache 127 cwd [] with
  | (.cached v, visited) => ⟨.ok v, visited, writeBack visited none cache⟩
  | (.nothing, visited) => ⟨.ok none, visited, writeBack visited none cache⟩
  | (.fsFailed, visited) => ⟨.error .fsError, visited, writeBack visited none cache⟩
  | (.found dir content, visited) =>
    match validateDecl content with
    | .error e => ⟨.error e, visited, writeBack visited none cache⟩
    | .ok j =>
      match fs.glob dir with
      | [] => ⟨.ok (some ⟨dir, j, none⟩), visited, writeBack visited (some ⟨dir, j, none⟩) cache⟩
      | [h] => ⟨.ok (some ⟨dir, j, some h⟩), visited, writeBack visited (some ⟨dir, j, some h⟩) cache⟩
      | _ :: _ :: _ => ⟨.error .ambiguousBuildConfig, visited, writeBack visited none cache⟩

/-! ## Notions used by the correctness proofs -/

/-- Nodes of `range n` not yet colored by the traversal; the measure that
shows the fuel of `visitT` suffices. -/
def freeCount (n : Nat) (s : VisitSt) : Nat :=
  ((Finset.range n).filter (fun v => v ∉ s.visited ∧ v ∉ s.visiting)).card

/-- All package indices mentioned by a task are in range. -/
def TaskValid (n : Nat) : Task → Prop
  | .one p _ => p < n
  | .many ds _ => ∀ d ∈ ds, d < n

/-- Fuel bound sufficient for running a task from state `s` on a graph with
`n` nodes and maximal out-degree `D`. -/
def fuelNeed (n D : Nat) (s : VisitSt) : Task → Nat
  | .one _ _ => 1 + freeCount n s * (D + 2)
  | .many ds _ => 1 + ds.length + freeCount n s * (D + 2)

/-- The `packageEntires` list is in dependency-respecting order: every entry's
downstream edges point at earlier entries. -/
inductive DepsOk (g : List Pkg) : List (Nat × Nat) → Prop
  | nil : DepsOk g []
  | snoc (es : List (Nat × Nat)) (x : Nat × Nat) : DepsOk g es →
      (∀ d ∈ downs g x.1, d ∈ es.map Prod.fst) → DepsOk g (es ++ [x])

/-- Invariant tying `visited` to `packageEntires`. -/
def Inv (g : List Pkg) (s : VisitSt) : Prop :=
  (s.entries.map Prod.fst).Nodup
  ∧ (∀ v, v ∈ s.visited ↔ v ∈ s.entries.map Prod.fst)
  ∧ DepsOk g s.entries

/-- What a task guarantees once it returns `true`. -/
def TaskDone (s : VisitSt) : Task → Prop
  | .one p _ => p ∈ s.visited
  | .many ds _ => ∀ d ∈ ds, d ∈ s.visited

/-- The reporter events of a prefix of successful builds. -/
def okTrace (es : List (Nat × Nat)) : List BEv :=
  es.flatMap (fun e => [.started e.1, .succeeded e.1])

/-- Watch-mode state of a unit that has no pending change and no armed timer
(its situation right after its last completed rebuild). -/
def watchInit (q : List QEntry) : WatchSt := ⟨false, 0, q⟩

instance (g : List Pkg) : Decidable (Wf g) := by
  unfold Wf
  infer_instance

/-! ## Concrete instances used by the theorems -/

/-- Two packages: `A` (index 0) depends on `B` (index 1). -/
def gTwo : List Pkg := [⟨"A", [1]⟩, ⟨"B", []⟩]

/-- The two-package cycle `A→B, B→A`. -/
def gCycleAB : List Pkg := [⟨"A", [1]⟩, ⟨"B", [0]⟩]

/-- One member `A` whose manifest lists `A` itself under `dependencies` with a
`workspace:` reference. -/
def msSelf : List Manifest :=
  [⟨"A", fun k n => if k = DependencyKind.runtime ∧ n = "A" then some "workspace:*" else none⟩]

/-- Members `A`, `B` where `A` references `B` under both `dependencies` and
`devDependencies` with `workspace:` references. -/
def msDup : List Manifest :=
  [⟨"A", fun k n =>
      if (k = DependencyKind.runtime ∨ k = DependencyKind.development) ∧ n = "B" then
        some "workspace:*" else none⟩,
   ⟨"B", fun _ _ => none⟩]

/-- A `package.json` whose `workspaces` array holds a string followed by a
number. -/
def mixedWorkspacesJson : Json :=
  .obj [("name", .str "p"), ("workspaces", .arr [.str "a", .num 1])]

/-- A filesystem whose directory `r` holds a malformed `package.json`. -/
def fsBadJson : FsModel :=
  ⟨fun d => if d = ["r"] then .found none else .enoent, fun _ => []⟩

/-! ## Theorems -/

/-! ## Theorems -/

theorem count_flatMap_self (L : Nat → List DependencyKind) (j : Nat) :
    ∀ l : List Nat, l.Nodup →
      (l.flatMap (fun x => (L x).map (fun _ => x))).count j
        = if j ∈ l then (L j).length else 0 := by
  intro l
  induction l with
  | nil => simp
  | cons a t ih =>
    intro hnd
    rcases List.nodup_cons.mp hnd with ⟨ha, ht⟩
    simp only [List.flatMap_cons, List.count_append, ih ht]
    rcases eq_or_ne j a with rfl | hja
    · simp [List.map_const, List.count_replicate, ha]
    · simp [List.map_const, List.count_replicate, hja, Ne.symm hja]

/-- C6 (amended): in the graph loop of `Workspace.discover`, for every ordered
pair of member indices `(i, j)`, the edge `i→j` is pushed exactly once per
followed dependency kind under which `i`'s manifest references `j`'s name with
a truthy reference accepted by the workspace-local filter — so a pair matching
under two kinds yields two copies, and the edge is unique exactly when a
single kind matches.  The same count appears in `upstreamDependents`. -/
theorem C6_amended_one_edge_per_matching_kind (ms : List Manifest)
    (follow : List DependencyKind) (filter : String → Bool) (i j : Nat)
    (hj : j < ms.length) (hi : i < ms.length) :
    (downstreamOf ms follow filter i).count j
      = (edgeKinds follow filter (ms.getD i emptyManifest) (ms.getD j emptyManifest)).length
    ∧ (upstreamOf ms follow filter j).count i
      = (edgeKinds follow filter (ms.getD i emptyManifest) (ms.getD j emptyManifest)).length := by
  constructor
  · rw [downstreamOf, count_flatMap_self _ _ _ (List.nodup_range _)]
    simp [List.mem_range, hj]
  · rw [upstreamOf, count_flatMap_self _ _ _ (List.nodup_range _)]
    simp [List.mem_range, hi]

/-- Witness for C6 (amended) at the two-member workspace `msDup`. -/
theorem C6_amended_witness :
    (1 < msDup.length ∧ 0 < msDup.length)
    ∧ (downstreamOf msDup followDefault refFilterDefault 0).count 1
        = (edgeKinds followDefault refFilterDefault (msDup.getD 0 emptyManifest)
            (msDup.getD 1 emptyManifest)).length :=
  ⟨⟨by decide, by decide⟩,
    (C6_amended_one_edge_per_matching_kind msDup followDefault refFilterDefault 0 1
      (by decide) (by decide)).1⟩

/-- C6 counterexample: member `A` of `msDup` references `B` under both
`dependencies` and `devDependencies` with `workspace:` references, and the
graph loop pushes the edge `A→B` twice — `downstreamDependencies` of `A` is
`[B, B]`, refuting the claim that duplicate `(A, kind, B)` combinations
collapse to a single edge. -/
theorem C6_counterexample_duplicate_edge_across_kinds :
    downstreamOf msDup followDefault refFilterDefault 0 = [1, 1]
    ∧ (downstreamOf msDup followDefault refFilterDefault 0).count 1 = 2
    ∧ upstreamOf msDup followDefault refFilterDefault 1 = [0, 0] := by
  refine ⟨by decide, by decide, by decide⟩

/-- C1: the code violates the claim.  `packages.forEach(visit)` passes the
array index as the `priority` parameter of `visit`, so a top-level package's
starting priority is its position in the requested list rather than `0`.
With `A` (index 0) depending on `B` (index 1) and the request list `[B, A]`,
`B` is assigned priority `0` and `A` priority `1`; sorting by descending
priority puts the dependent `A` at schedule position 0 and its dependency `B`
at position 1, violating the topological invariant B-index ≤ A-index. -/
theorem C1_dependent_scheduled_before_dependency :
    schedule gTwo [1, 0] = .ok [(0, 1), (1, 0)]
    ∧ 1 ∈ downs gTwo 0
    ∧ (([(0, 1), (1, 0)] : List (Nat × Nat)).map Prod.fst) = [0, 1] := by
  refine ⟨by decide, by decide, by decide⟩

/-- C5: the code violates the claim.  The graph loop of `Workspace.discover`
never compares `upstream` with `downstream`, so member `A` of `msSelf`, whose
manifest references its own name with a `workspace:` reference, receives the
self-edge `A→A` in both `downstreamDependencies` and `upstreamDependents` —
contradicting the field documentation ("other ws packages") — and scheduling
`A` then throws `dependency cycle [-> A ->]`. -/
theorem C5_self_reference_creates_self_edge_and_cycle_error :
    downstreamOf msSelf followDefault refFilterDefault 0 = [0]
    ∧ upstreamOf msSelf followDefault refFilterDefault 0 = [0]
    ∧ schedule (graphOf msSelf followDefault refFilterDefault) [0]
        = .error (.dependencyCycle "dependency cycle [-> A ->]") := by
  refine ⟨by decide, by decide, by decide⟩

/-- C3 counterexample: in the rolldown variant, the one-shot loop
(`Dispatcher.build` of part_005) awaits `Builder.build`, which reports a
failure and then rethrows; the loop has no catch, so with a schedule of two
entries whose first build fails, the run ends with that error and the second
entry's build is never started. -/
theorem C3_counterexample_failure_unwinds_one_shot_run :
    dispatch005 (fun p => p != 0) (fun _ => true) [(0, 1), (1, 0)] 0
      = ([.started 0, .failed 0, .errorLogged 0], .error (.buildFailed 0))
    ∧ BEv.started 1 ∉ (dispatch005 (fun p => p != 0) (fun _ => true) [(0, 1), (1, 0)] 0).1 := by
  refine ⟨by decide, by decide⟩

/-- C3 (amended): in the rollup variant (part_006 dispatcher with part_013
builder), `Builder.build` itself catches, reports and swallows every failure
and never throws, so the one-shot loop reaches every scheduled entry: each
entry's build is started, failures are reported, and the run returns
normally. -/
theorem C3_amended_rollup_builder_swallows_failures (outcomes : Nat → Bool)
    (es : List (Nat × Nat)) :
    (dispatch006 outcomes false es).2 = .ok ()
    ∧ (∀ e ∈ es, BEv.started e.1 ∈ (dispatch006 outcomes false es).1)
    ∧ (∀ e ∈ es, outcomes e.1 = false → BEv.failed e.1 ∈ (dispatch006 outcomes false es).1)
    ∧ (∀ p b, (builder013 p b).head? = some (.started p)) := by
  refine ⟨rfl, ?_, ?_, fun p b => rfl⟩
  · intro e he
    simp only [dispatch006, if_neg (by simp : ¬(false = true))]
    exact List.mem_flatMap.mpr ⟨e, he, by simp [builder013]⟩
  · intro e he hb
    simp only [dispatch006, if_neg (by simp : ¬(false = true))]
    exact List.mem_flatMap.mpr ⟨e, he, by simp [builder013, hb]⟩

/-- Witness for C3 (amended) at a one-entry schedule whose build fails. -/
theorem C3_amended_witness :
    ((0, 5) ∈ [((0 : Nat), (5 : Nat))])
    ∧ BEv.started 0 ∈ (dispatch006 (fun _ => false) false [(0, 5)]).1 :=
  ⟨by decide,
    (C3_amended_rollup_builder_swallows_failures (fun _ => false) [(0, 5)]).2.1 (0, 5) (by decide)⟩

theorem dispatch005_abort_aux (outcomes act : Nat → Bool) :
    ∀ (es : List (Nat × Nat)) (k i : Nat), i < es.length →
      act (k + i) = false →
      (∀ j, j < i → act (k + j) = true) →
      (∀ e ∈ es.take i, outcomes e.1 = true) →
      dispatch005 outcomes act es k = (okTrace (es.take i), .error .aborted) := by
  intro es
  induction es with
  | nil => intro k i hi; simp at hi
  | cons hd t ih =>
    intro k i hi hstop hact hok
    match i with
    | 0 =>
      obtain ⟨p, pr⟩ := hd
      simp only [Nat.add_zero] at hstop
      simp [dispatch005, ensureActive, hstop, okTrace]
    | i' + 1 =>
      have hk : act k = true := by simpa using hact 0 (Nat.succ_pos _)
      obtain ⟨p, pr⟩ := hd
      have hp : outcomes p = true := hok (p, pr) (by simp [List.take_succ_cons])
      have hrec : dispatch005 outcomes act t (k + 1) = (okTrace (t.take i'), .error .aborted) := by
        apply ih (k + 1) i' (by simpa using hi)
        · have := hstop
          simpa [Nat.add_assoc, Nat.add_comm 1 i'] using this
        · intro j hj
          have := hact (j + 1) (by omega)
          simpa [Nat.add_assoc, Nat.add_comm 1 j] using this
        · intro e he
          exact hok e (by simp [List.take_succ_cons, he])
      simp [dispatch005, ensureActive, hk, builder005, hp, hrec, okTrace]

theorem getElem_not_mem_take_of_nodup {α} (l : List α) (hnd : l.Nodup) (i : Nat)
    (hi : i < l.length) : l[i] ∉ l.take i := by
  intro hmem
  have hdrop : l[i] ∈ l.drop i := by
    rw [List.drop_eq_getElem_cons hi]
    exact List.mem_cons_self _ _
  exact (List.disjoint_take_drop hnd le_rfl) hmem hdrop

/-- C4: in the rolldown variant's one-shot loop, `main.ensureActive()` runs
before each entry's build; if the activity token is stopped before the `i`-th
iteration (and everything earlier succeeded while active), the run ends with
`AbortError`, the trace holds exactly the events of the first `i` entries, and
the `i`-th entry's build is never started; `ensureActive` raises `AbortError`
exactly when the token is inactive and never raises while it is active. -/
theorem C4_abort_fail_fast (es : List (Nat × Nat)) (outcomes act : Nat → Bool) (i : Nat)
    (hi : i < es.length) (hstop : act i = false) (hact : ∀ j, j < i → act j = true)
    (hok : ∀ e ∈ es.take i, outcomes e.1 = true) (hnd : (es.map Prod.fst).Nodup) :
    dispatch005 outcomes act es 0 = (okTrace (es.take i), .error .aborted)
    ∧ BEv.started es[i].1 ∉ (dispatch005 outcomes act es 0).1
    ∧ (∀ b, ensureActive b = .error .aborted ↔ b = false)
    ∧ (∀ b, b = true → ensureActive b = .ok ()) := by
  have hmain : dispatch005 outcomes act es 0 = (okTrace (es.take i), .error .aborted) := by
    have := dispatch005_abort_aux outcomes act es 0 i hi (by simpa using hstop)
      (fun j hj => by simpa using hact j hj) hok
    simpa using this
  refine ⟨hmain, ?_, ?_, ?_⟩
  · rw [hmain]
    intro hmem
    rcases List.mem_flatMap.mp hmem with ⟨e, he, hin⟩
    have heq : es[i].1 = e.1 := by simpa using hin
    have h2 : es[i].1 ∈ (es.map Prod.fst).take i := by
      rw [← List.map_take]
      exact heq ▸ List.mem_map_of_mem Prod.fst he
    have hil : i < (es.map Prod.fst).length := by simpa using hi
    have h3 := getElem_not_mem_take_of_nodup _ hnd i hil
    rw [List.getElem_map] at h3
    exact h3 h2
  · intro b
    cases b <;> simp [ensureActive]
  · intro b hb
    simp [ensureActive, hb]

/-- Witness for C4 with a two-entry schedule whose token stops after the
first iteration. -/
theorem C4_witness :
    ((1 : Nat) < [((0 : Nat), (0 : Nat)), (1, 0)].length
      ∧ (fun k => k == 0) 1 = false
      ∧ ([((0 : Nat), (0 : Nat)), (1, 0)].map Prod.fst).Nodup)
    ∧ dispatch005 (fun _ => true) (fun k => k == 0) [(0, 0), (1, 0)] 0
        = (okTrace ([((0 : Nat), (0 : Nat)), (1, 0)].take 1), .error .aborted) :=
  ⟨⟨by decide, by decide, by decide⟩,
    (C4_abort_fail_fast [(0, 0), (1, 0)] (fun _ => true) (fun k => k == 0) 1
      (by decide) (by decide) (fun j hj => by
        have hj0 : j = 0 := by omega
        subst hj0; decide)
      (fun e he => rfl) (by decide)).1⟩

/-- Membership through `Dispatcher.enqueue`: the result holds exactly the old
entries and the new one. -/
theorem mem_enqueue_iff (e x : QEntry) : ∀ q : List QEntry, (x ∈ enqueue e q ↔ x = e ∨ x ∈ q) := by
  intro q
  induction q with
  | nil => simp [enqueue]
  | cons o rest ih =>
    by_cases h1 : o = e
    · subst h1
      simp [enqueue]
      try tauto
    · by_cases h2 : o.2 < e.2
      · simp [enqueue, h1, h2]
        try tauto
      · simp [enqueue, h1, h2, ih]
        try tauto

theorem enqueue_mem_sorted_eq (e : QEntry) :
    ∀ q : List QEntry, QSorted q → e ∈ q → enqueue e q = q := by
  intro q
  induction q with
  | nil => intro _ h; cases h
  | cons o rest ih =>
    intro hs hm
    rcases List.pairwise_cons.mp hs with ⟨ho, hrest⟩
    by_cases h1 : o = e
    · simp [enqueue, h1]
    · have hm2 : e ∈ rest := by
        rcases List.mem_cons.mp hm with h | h
        · exact absurd h.symm h1
        · exact h
      have hle : e.2 ≤ o.2 := ho e hm2
      have h2 : ¬ o.2 < e.2 := not_lt.mpr hle
      simp [enqueue, h1, h2, ih hrest hm2]

theorem enqueue_not_mem_split (e : QEntry) :
    ∀ q : List QEntry, e ∉ q →
      enqueue e q = q.takeWhile (fun o => decide (e.2 ≤ o.2))
        ++ e :: q.dropWhile (fun o => decide (e.2 ≤ o.2)) := by
  intro q
  induction q with
  | nil => intro _; simp [enqueue]
  | cons o rest ih =>
    intro hm
    have h1 : o ≠ e := fun h => hm (h ▸ List.mem_cons_self o rest)
    by_cases h2 : o.2 < e.2
    · have hp : decide (e.2 ≤ o.2) = false := by simp [not_le.mpr h2]
      simp [enqueue, h1, h2, List.takeWhile_cons, List.dropWhile_cons, hp]
    · have hp : decide (e.2 ≤ o.2) = true := by simp [not_lt.mp h2]
      have hm2 : e ∉ rest := fun h => hm (List.mem_cons_of_mem o h)
      simp [enqueue, h1, h2, List.takeWhile_cons, List.dropWhile_cons, hp, ih hm2]

theorem enqueue_sorted (e : QEntry) :
    ∀ q : List QEntry, QSorted q → QSorted (enqueue e q) := by
  intro q
  induction q with
  | nil => intro _; simp [enqueue, QSorted]
  | cons o rest ih =>
    intro hs
    rcases List.pairwise_cons.mp hs with ⟨ho, hrest⟩
    by_cases h1 : o = e
    · simpa [enqueue, h1] using hs
    · by_cases h2 : o.2 < e.2
      · have hE : enqueue e (o :: rest) = e :: o :: rest := by simp [enqueue, h1, h2]
        rw [hE]
        show List.Pairwise _ _
        refine List.pairwise_cons.mpr ⟨?_, hs⟩
        intro x hx
        rcases List.mem_cons.mp hx with h | h
        · exact h ▸ le_of_lt h2
        · exact le_trans (ho x h) (le_of_lt h2)
      · have hE : enqueue e (o :: rest) = o :: enqueue e rest := by simp [enqueue, h1, h2]
        rw [hE]
        show List.Pairwise _ _
        refine List.pairwise_cons.mpr ⟨?_, ih hrest⟩
        intro x hx
        rcases (mem_enqueue_iff e x rest).mp hx with h | h
        · exact h ▸ not_lt.mp h2
        · exact ho x h

theorem enqueue_nodup (e : QEntry) (q : List QEntry) (hs : QSorted q) (hnd : q.Nodup) :
    (enqueue e q).Nodup := by
  by_cases hm : e ∈ q
  · rw [enqueue_mem_sorted_eq e q hs hm]; exact hnd
  · rw [enqueue_not_mem_split e q hm]
    have hperm : (q.takeWhile (fun o => decide (e.2 ≤ o.2))
        ++ e :: q.dropWhile (fun o => decide (e.2 ≤ o.2))).Perm (e :: q) := by
      have := @List.perm_middle QEntry e
        (q.takeWhile (fun o => decide (e.2 ≤ o.2)))
        (q.dropWhile (fun o => decide (e.2 ≤ o.2)))
      rw [List.takeWhile_append_dropWhile] at this
      exact this
    exact hperm.nodup_iff.mpr (List.nodup_cons.mpr ⟨hm, hnd⟩)

theorem count_enqueue_of_not_mem (e : QEntry) (q : List QEntry) (hm : e ∉ q) :
    (enqueue e q).count e = 1 := by
  rw [enqueue_not_mem_split e q hm, List.count_append, List.count_cons_self]
  have h1 : (q.takeWhile (fun o => decide (e.2 ≤ o.2))).count e = 0 :=
    List.count_eq_zero.mpr (fun h => hm ((List.takeWhile_sublist _).mem h))
  have h2 : (q.dropWhile (fun o => decide (e.2 ≤ o.2))).count e = 0 :=
    List.count_eq_zero.mpr (fun h => hm ((List.dropWhile_sublist _).mem h))
  omega

/-- C7: on a queue sorted by descending priority, `Dispatcher.enqueue` is
idempotent and priority-ordered: an entry already present leaves the queue
unmodified; an absent entry is inserted immediately before the first entry of
strictly lower priority (after all entries of greater-or-equal priority, so
relative order of equal priorities is preserved); the result stays sorted and
duplicate-free, and enqueueing the same entry twice equals enqueueing it
once. -/
theorem C7_enqueue_idempotent_and_priority_ordered (q : List QEntry) (e : QEntry)
    (hs : QSorted q) :
    (e ∈ q → enqueue e q = q)
    ∧ (e ∉ q → enqueue e q = q.takeWhile (fun o => decide (e.2 ≤ o.2))
        ++ e :: q.dropWhile (fun o => decide (e.2 ≤ o.2)))
    ∧ QSorted (enqueue e q)
    ∧ (q.Nodup → (enqueue e q).Nodup)
    ∧ enqueue e (enqueue e q) = enqueue e q := by
  refine ⟨fun hm => enqueue_mem_sorted_eq e q hs hm,
    fun hm => enqueue_not_mem_split e q hm,
    enqueue_sorted e q hs,
    fun hnd => enqueue_nodup e q hs hnd,
    enqueue_mem_sorted_eq e (enqueue e q) (enqueue_sorted e q hs)
      ((mem_enqueue_iff e e q).mpr (Or.inl rfl))⟩

/-- Witness for C7 on the sorted queue `[(1,5),(2,3)]` and entry `(3,4)`. -/
theorem C7_witness :
    QSorted [((1 : Nat), (5 : Nat)), (2, 3)]
    ∧ QSorted (enqueue (3, 4) [((1 : Nat), (5 : Nat)), (2, 3)])
    ∧ enqueue (3, 4) (enqueue (3, 4) [((1 : Nat), (5 : Nat)), (2, 3)])
        = enqueue (3, 4) [((1 : Nat), (5 : Nat)), (2, 3)] :=
  ⟨by decide,
    (C7_enqueue_idempotent_and_priority_ordered [(1, 5), (2, 3)] (3, 4) (by decide)).2.2.1,
    (C7_enqueue_idempotent_and_priority_ordered [(1, 5), (2, 3)] (3, 4) (by decide)).2.2.2.2⟩

theorem watchStep_notify_dirty (e : QEntry) (s : WatchSt) (h : s.isDirty = true) :
    watchStep e s .notify = s := by
  simp [watchStep, h]

theorem watchRun_notify_dirty (e : QEntry) (s : WatchSt) (h : s.isDirty = true) :
    ∀ m : Nat, watchRun e s (List.replicate m .notify) = s := by
  intro m
  induction m with
  | zero => rfl
  | succ m ih =>
    rw [List.replicate_succ]
    show watchRun e (watchStep e s .notify) (List.replicate m .notify) = s
    rw [watchStep_notify_dirty e s h]
    exact ih

theorem watchRun_notifies (e : QEntry) (q : List QEntry) (n : Nat) (hn : 1 ≤ n) :
    watchRun e (watchInit q) (List.replicate n .notify) = ⟨true, 1, q⟩ := by
  obtain ⟨m, rfl⟩ : ∃ m, n = m + 1 := ⟨n - 1, by omega⟩
  rw [List.replicate_succ]
  show watchRun e (watchStep e (watchInit q) .notify) (List.replicate m .notify) = _
  have h1 : watchStep e (watchInit q) .notify = ⟨true, 1, q⟩ := rfl
  rw [h1]
  exact watchRun_notify_dirty e _ rfl m

/-- C8: starting from a unit's clean watch state (not dirty, no armed timer),
`n ≥ 1` change notifications followed by the debounce-timer firing produce
exactly one insertion of the unit into the pending queue: the first
notification marks the entry dirty and arms one timer, every further
notification while dirty is ignored, and the firing timer enqueues the unit
once (final queue holds exactly one copy). -/
theorem C8_debounce_coalesces_to_single_enqueue (e : QEntry) (q : List QEntry) (n : Nat)
    (hn : 1 ≤ n) (he : e ∉ q) :
    watchRun e (watchInit q) (List.replicate n .notify ++ [.fire]) = ⟨true, 0, enqueue e q⟩
    ∧ (watchRun e (watchInit q) (List.replicate n .notify ++ [.fire])).queue.count e = 1
    ∧ watchStep e (watchInit q) .notify = ⟨true, 1, q⟩
    ∧ (∀ s : WatchSt, s.isDirty = true → watchStep e s .notify = s) := by
  have hmain : watchRun e (watchInit q) (List.replicate n .notify ++ [.fire])
      = ⟨true, 0, enqueue e q⟩ := by
    rw [watchRun, List.foldl_append]
    show watchStep e (watchRun e (watchInit q) (List.replicate n .notify)) .fire = _
    rw [watchRun_notifies e q n hn]
    rfl
  exact ⟨hmain, by rw [hmain]; exact count_enqueue_of_not_mem e q he,
    rfl, watchStep_notify_dirty e⟩

/-- Witness for C8 with three coalesced notifications. -/
theorem C8_witness :
    (1 ≤ 3 ∧ ((7 : Nat), (4 : Nat)) ∉ [((1 : Nat), (5 : Nat))])
    ∧ watchRun (7, 4) (watchInit [((1 : Nat), (5 : Nat))])
        (List.replicate 3 .notify ++ [.fire]) = ⟨true, 0, enqueue (7, 4) [(1, 5)]⟩ :=
  ⟨⟨by decide, by decide⟩,
    (C8_debounce_coalesces_to_single_enqueue (7, 4) [(1, 5)] 3 (by decide) (by decide)).1⟩

/-- C9 counterexample: `isArrayOf(value, isString)` tests only `value[0]`, so
the manifest `{ name: "p", workspaces: ["a", 1] }` — whose `workspaces` array
contains the non-string element `1` — passes shape validation, refuting the
claim that an array containing any non-string element is rejected. -/
theorem C9_counterexample_nonstring_element_accepted :
    validateDecl (some mixedWorkspacesJson) = .ok mixedWorkspacesJson
    ∧ getField mixedWorkspacesJson "workspaces" = some (.arr [.str "a", .num 1])
    ∧ isStringJ (some (.num 1)) = false := ⟨rfl, rfl, rfl⟩

/-- C9 (amended): parsing fails with a parse error on malformed text; shape
validation fails when the value is not an object, when `name` is absent or not
a string, and — `workspaces` being present — exactly when `workspaces` is not
an array, or is non-empty with a non-string FIRST element; elements after the
first are never inspected. -/
theorem C9_amended_first_element_only_validation (j w : Json) :
    validateDecl none = .error .parseError
    ∧ (isObject j = false → validateDecl (some j) = .error .notObject)
    ∧ (isObject j = true → isStringJ (getField j "name") = false →
        validateDecl (some j) = .error .nameNotString)
    ∧ (isObject j = true → isStringJ (getField j "name") = true →
        getField j "workspaces" = some w →
          (validateDecl (some j) = .error .workspacesNotStrings ↔ isArrayOfString w = false)
          ∧ (isArrayOfString w = true → validateDecl (some j) = .ok j))
    ∧ (isObject j = true → isStringJ (getField j "name") = true →
        getField j "workspaces" = none → validateDecl (some j) = .ok j)
    ∧ (∀ s : String, ∀ rest : List Json, isArrayOfString (.arr (Json.str s :: rest)) = true)
    ∧ (∀ x : Json, (∀ s : String, x ≠ Json.str s) → ∀ rest : List Json,
        isArrayOfString (.arr (x :: rest)) = false) := by
  refine ⟨rfl, ?_, ?_, ?_, ?_, fun s rest => rfl, ?_⟩
  · intro hO; simp [validateDecl, hO]
  · intro hO hN; simp [validateDecl, hO, hN]
  · intro hO hN hW
    constructor
    · cases hA : isArrayOfString w
      · simp [validateDecl, hO, hN, hW, hA]
      · simp [validateDecl, hO, hN, hW, hA]
    · intro hA; simp [validateDecl, hO, hN, hW, hA]
  · intro hO hN hW; simp [validateDecl, hO, hN, hW]
  · intro x hx rest
    cases x with
    | str s => exact absurd rfl (hx s)
    | null => rfl
    | bool b => rfl
    | num n => rfl
    | arr es => rfl
    | obj fs => rfl

/-- Witness for C9 (amended) at the manifest with `workspaces = ["a", 1]`. -/
theorem C9_amended_witness :
    (isObject mixedWorkspacesJson = true
      ∧ isStringJ (getField mixedWorkspacesJson "name") = true
      ∧ getField mixedWorkspacesJson "workspaces" = some (.arr [.str "a", .num 1])
      ∧ isArrayOfString (.arr [.str "a", .num 1]) = true)
    ∧ validateDecl (some mixedWorkspacesJson) = .ok mixedWorkspacesJson :=
  ⟨⟨rfl, rfl, rfl, rfl⟩,
    ((C9_amended_first_element_only_validation mixedWorkspacesJson
        (.arr [.str "a", .num 1])).2.2.2.1 rfl rfl rfl).2 rfl⟩

theorem cacheGet_writeBack_not_mem (v : Option PkgR) :
    ∀ (visited : List (List String)) (c : Cache) (d : List String), d ∉ visited →
      cacheGet (writeBack visited v c) d = cacheGet c d := by
  intro visited
  induction visited with
  | nil => intro c d _; rfl
  | cons x t ih =>
    intro c d hd
    have hdx : d ≠ x := fun h => hd (h ▸ List.mem_cons_self x t)
    have hdt : d ∉ t := fun h => hd (List.mem_cons_of_mem x h)
    show cacheGet (writeBack t v ((x, v) :: c)) d = _
    rw [ih _ _ hdt]
    simp [cacheGet, List.lookup, beq_false_of_ne hdx]

theorem cacheGet_writeBack_mem (v : Option PkgR) :
    ∀ (visited : List (List String)) (c : Cache) (d : List String), d ∈ visited →
      cacheGet (writeBack visited v c) d = some v := by
  intro visited
  induction visited with
  | nil => intro c d h; cases h
  | cons x t ih =>
    intro c d hd
    by_cases hdt : d ∈ t
    · exact ih _ _ hdt
    · have hdx : d = x := by
        rcases List.mem_cons.mp hd with h | h
        · exact h
        · exact absurd h hdt
      subst hdx
      show cacheGet (writeBack t v ((d, v) :: c)) d = some v
      rw [cacheGet_writeBack_not_mem v t _ d hdt]
      simp [cacheGet, List.lookup]

theorem walk_visited_chars (fs : FsModel) (jail : List String) (cache : Cache) :
    ∀ (fuel : Nat) (cwd : List String) (visited : List (List String)),
      ∀ d ∈ (walk fs jail cache fuel cwd visited).2,
        d ∈ visited ∨ jail.isPrefixOf d = true := by
  intro fuel
  induction fuel with
  | zero => intro cwd visited d hd; exact Or.inl hd
  | succ fuel ih =>
    intro cwd visited d hd
    rw [walk] at hd
    by_cases hj : jail.isPrefixOf cwd
    · rw [if_pos hj] at hd
      cases hc : cacheGet cache cwd with
      | some v => rw [hc] at hd; exact Or.inl hd
      | none =>
        rw [hc] at hd
        simp only [] at hd
        cases hr : fs.readPkgJson cwd with
        | found content =>
          rw [hr] at hd
          simp only [] at hd
          rcases List.mem_append.mp hd with h | h
          · exact Or.inl h
          · rcases List.mem_singleton.mp h with rfl
            exact Or.inr hj
        | ioErr =>
          rw [hr] at hd
          simp only [] at hd
          rcases List.mem_append.mp hd with h | h
          · exact Or.inl h
          · rcases List.mem_singleton.mp h with rfl
            exact Or.inr hj
        | enoent =>
          rw [hr] at hd
          simp only [] at hd
          by_cases hroot : cwd.dropLast = cwd
          · rw [if_pos hroot] at hd
            rcases List.mem_append.mp hd with h | h
            · exact Or.inl h
            · rcases List.mem_singleton.mp h with rfl
              exact Or.inr hj
          · rw [if_neg hroot] at hd
            rcases ih cwd.dropLast (visited ++ [cwd]) d hd with h | h
            · rcases List.mem_append.mp h with h2 | h2
              · exact Or.inl h2
              · rcases List.mem_singleton.mp h2 with rfl
                exact Or.inr hj
            · exact Or.inr h
    · rw [if_neg hj] at hd
      exact Or.inl hd

theorem walk_cached (fs : FsModel) (jail : List String) (cache : Cache) (fuel : Nat)
    (cwd : List String) (visited : List (List String)) (v : Option PkgR)
    (hj : jail.isPrefixOf cwd = true) (hc : cacheGet cache cwd = some v) :
    walk fs jail cache (fuel + 1) cwd visited = (.cached v, visited) := by
  rw [walk, if_pos hj, hc]

theorem discover_cached_none (fs : FsModel) (jail : List String) (c2 : Cache)
    (d : List String) (hj : jail.isPrefixOf d = true) (hc : cacheGet c2 d = some none) :
    discover fs jail c2 d = ⟨.ok none, [], c2⟩ := by
  have hw : walk fs jail c2 127 d [] = (.cached none, []) :=
    walk_cached fs jail c2 126 d [] none hj hc
  unfold discover
  rw [hw]
  rfl

theorem discover_error_parts (fs : FsModel) (jail : List String) (cache : Cache)
    (cwd : List String) (e : ManifestErr)
    (h : (discover fs jail cache cwd).res = .error e) :
    (discover fs jail cache cwd).cache
        = writeBack (discover fs jail cache cwd).visited none cache
    ∧ (discover fs jail cache cwd).visited = (walk fs jail cache 127 cwd []).2 := by
  rcases hw : walk fs jail cache 127 cwd [] with ⟨out, vis⟩
  unfold discover at h ⊢
  rw [hw] at h ⊢
  cases out with
  | cached v => simp at h
  | nothing => simp at h
  | fsFailed => exact ⟨rfl, rfl⟩
  | found dir content =>
    simp only [] at h ⊢
    rcases hv : validateDecl content with e2 | j
    · exact ⟨rfl, rfl⟩
    · rw [hv] at h
      rcases hg : fs.glob dir with _ | ⟨g1, _ | ⟨g2, gt⟩⟩
      · rw [hg] at h
        exact Except.noConfusion h
      · rw [hg] at h
        exact Except.noConfusion h
      · exact ⟨rfl, rfl⟩

/-- C10: when a `Package.discover` call fails with any error, its `finally`
block still caches a `null` result for every directory visited during the
walk, and a subsequent `discover` call starting from any of those directories
hits the cache and returns `null` ("no package here") without re-raising the
error and without touching the cache. -/
theorem C10_failed_discovery_caches_null_for_visited_dirs (fs : FsModel)
    (jail : List String) (cache : Cache) (cwd : List String) (e : ManifestErr)
    (h : (discover fs jail cache cwd).res = .error e) :
    (∀ d ∈ (discover fs jail cache cwd).visited,
      cacheGet (discover fs jail cache cwd).cache d = some none)
    ∧ (∀ d ∈ (discover fs jail cache cwd).visited,
      discover fs jail ((discover fs jail cache cwd).cache) d
        = ⟨.ok none, [], (discover fs jail cache cwd).cache⟩) := by
  rcases discover_error_parts fs jail cache cwd e h with ⟨hcache, hvis⟩
  have hnull : ∀ d ∈ (discover fs jail cache cwd).visited,
      cacheGet (discover fs jail cache cwd).cache d = some none := by
    intro d hd
    rw [hcache]
    exact cacheGet_writeBack_mem none _ cache d hd
  refine ⟨hnull, ?_⟩
  intro d hd
  have hj : jail.isPrefixOf d = true := by
    have := walk_visited_chars fs jail cache 127 cwd [] d (hvis ▸ hd)
    rcases this with h2 | h2
    · cases h2
    · exact h2
  exact discover_cached_none fs jail _ d hj (hnull d hd)

/-- Witness for C10 on a filesystem whose root directory holds a malformed
manifest. -/
theorem C10_witness :
    ((discover fsBadJson [] [] ["r"]).res = .error .parseError
      ∧ ["r"] ∈ (discover fsBadJson [] [] ["r"]).visited)
    ∧ discover fsBadJson [] ((discover fsBadJson [] [] ["r"]).cache) ["r"]
        = ⟨.ok none, [], (discover fsBadJson [] [] ["r"]).cache⟩ :=
  ⟨⟨rfl, by simp [discover, walk, fsBadJson, cacheGet, validateDecl]⟩,
    (C10_failed_discovery_caches_null_for_visited_dirs fsBadJson [] [] ["r"] .parseError rfl).2
      ["r"] (by simp [discover, walk, fsBadJson, cacheGet, validateDecl])⟩

theorem visitT_zero (g : List Pkg) (t : Task) (s : VisitSt) :
    visitT g 0 t s = .error .fuelOut := rfl

theorem visitT_one (g : List Pkg) (fuel pkg prio : Nat) (s : VisitSt) :
    visitT g (fuel + 1) (.one pkg prio) s =
      if pkg ∈ s.visited then
        .ok (true, s)
      else if pkg ∈ s.visiting then
        .ok (false, { s with cycleStart := some pkg, cycleInfo := nameOf g pkg })
      else
        match visitT g fuel (.many (downs g pkg) (prio + 1))
            { s with visiting := pkg :: s.visiting } with
        | .error e => .error e
        | .ok (true, s2) =>
          .ok (true, { s2 with
            visiting := s2.visiting.erase pkg,
            visited := pkg :: s2.visited,
            entries := s2.entries ++ [(pkg, prio)] })
        | .ok (false, s2) =>
          if s2.cycleStart = some pkg then
            .error (.dependencyCycle ("dependency cycle [-> " ++ s2.cycleInfo ++ " ->]"))
          else
            .ok (false, { s2 with cycleInfo := s2.cycleInfo ++ " -> " ++ nameOf g pkg }) := rfl

theorem visitT_many_nil (g : List Pkg) (fuel prio : Nat) (s : VisitSt) :
    visitT g (fuel + 1) (.many [] prio) s = .ok (true, s) := rfl

theorem visitT_many_cons (g : List Pkg) (fuel prio d : Nat) (ds : List Nat) (s : VisitSt) :
    visitT g (fuel + 1) (.many (d :: ds) prio) s =
      match visitT g fuel (.one d prio) s with
      | .error e => .error e
      | .ok (false, s2) => .ok (false, s2)
      | .ok (true, s2) => visitT g fuel (.many ds prio) s2 := rfl

theorem visitT_main (g : List Pkg) :
    ∀ (fuel : Nat) (t : Task) (s : VisitSt) (b : Bool) (s2 : VisitSt),
    visitT g fuel t s = .ok (b, s2) →
    ((∀ v, v ∈ s.visited → v ∈ s2.visited)
    ∧ (∀ v, v ∈ s.visited ∨ v ∈ s.visiting → v ∈ s2.visited ∨ v ∈ s2.visiting)
    ∧ (b = true → s2.visiting = s.visiting ∧ TaskDone s2 t)
    ∧ (b = false → ∃ c, s2.cycleStart = some c ∧ c ∈ s.visiting)
    ∧ (∀ x, x ∈ s2.visited → x ∈ s.visited ∨ x ∉ s.visiting)
    ∧ (Inv g s → Inv g s2)) := by
  intro fuel
  induction fuel with
  | zero =>
    intro t s b s2 h
    rw [visitT_zero] at h
    exact absurd h (by simp)
  | succ f ih =>
    intro t s b s2 h
    cases t with
    | one pkg prio =>
      rw [visitT_one] at h
      by_cases hvd : pkg ∈ s.visited
      · rw [if_pos hvd] at h
        cases h
        exact ⟨fun v hv => hv, fun v hv => hv, fun _ => ⟨rfl, hvd⟩,
          fun hb => Bool.noConfusion hb, fun x hx => Or.inl hx, fun hInv => hInv⟩
      · rw [if_neg hvd] at h
        by_cases hvg : pkg ∈ s.visiting
        · rw [if_pos hvg] at h
          cases h
          exact ⟨fun v hv => hv, fun v hv => hv, fun hb => Bool.noConfusion hb,
            fun _ => ⟨pkg, rfl, hvg⟩, fun x hx => Or.inl hx, fun hInv => hInv⟩
        · rw [if_neg hvg] at h
          rcases hr : visitT g f (.many (downs g pkg) (prio + 1))
              { s with visiting := pkg :: s.visiting } with e | bs
          · rw [hr] at h
            exact absurd h (by simp)
          · obtain ⟨b1, sb⟩ := bs
            rw [hr] at h
            obtain ⟨hm1, hm2, hm3, hm5, hm9, hInvP⟩ := ih _ _ _ _ hr
            cases b1
            · simp only [] at h
              by_cases hcs : sb.cycleStart = some pkg
              · rw [if_pos hcs] at h
                exact absurd h (by simp)
              · rw [if_neg hcs] at h
                cases h
                obtain ⟨c, hc1, hc2⟩ := hm5 rfl
                refine ⟨fun v hv => hm1 v hv, ?_, fun hb => Bool.noConfusion hb, ?_, ?_, ?_⟩
                · intro v hv
                  have : v ∈ ({ s with visiting := pkg :: s.visiting } : VisitSt).visited
                      ∨ v ∈ ({ s with visiting := pkg :: s.visiting } : VisitSt).visiting := by
                    rcases hv with hv | hv
                    · exact Or.inl hv
                    · exact Or.inr (List.mem_cons_of_mem pkg hv)
                  exact hm2 v this
                · intro _
                  refine ⟨c, hc1, ?_⟩
                  rcases List.mem_cons.mp hc2 with rfl | hc3
                  · exact absurd (hc1 ▸ rfl) hcs
                  · exact hc3
                · intro x hx
                  rcases hm9 x hx with h1 | h1
                  · exact Or.inl h1
                  · exact Or.inr (fun hxs => h1 (List.mem_cons_of_mem pkg hxs))
                · intro hInv
                  exact hInvP hInv
            · cases h
              obtain ⟨hvis_eq, hdone⟩ := hm3 rfl
              have hpkg_nv : pkg ∉ sb.visited := by
                intro hc
                rcases hm9 pkg hc with h1 | h1
                · exact hvd h1
                · exact h1 (List.mem_cons_self pkg s.visiting)
              refine ⟨?_, ?_, ?_, fun hb => Bool.noConfusion hb, ?_, ?_⟩
              · intro v hv
                exact List.mem_cons_of_mem pkg (hm1 v hv)
              · intro v hv
                have hv2 := hm2 v (by
                  rcases hv with hv | hv
                  · exact Or.inl hv
                  · exact Or.inr (List.mem_cons_of_mem pkg hv))
                rcases hv2 with h1 | h1
                · exact Or.inl (List.mem_cons_of_mem pkg h1)
                · rw [hvis_eq] at h1
                  rcases List.mem_cons.mp h1 with rfl | h2
                  · exact Or.inl (List.mem_cons_self _ _)
                  · exact Or.inr (by
                      show v ∈ sb.visiting.erase pkg
                      rw [hvis_eq, List.erase_cons_head]
                      exact h2)
              · intro _
                constructor
                · show sb.visiting.erase pkg = s.visiting
                  rw [hvis_eq, List.erase_cons_head]
                · show pkg ∈ pkg :: sb.visited
                  exact List.mem_cons_self _ _
              · intro x hx
                rcases List.mem_cons.mp hx with rfl | h1
                · exact Or.inr hvg
                · rcases hm9 x h1 with h2 | h2
                  · exact Or.inl h2
                  · exact Or.inr (fun hxs => h2 (List.mem_cons_of_mem pkg hxs))
              · intro hInv
                obtain ⟨hnd, hiff, hdeps⟩ := hInvP hInv
                have hpkg_nid : pkg ∉ sb.entries.map Prod.fst :=
                  fun hc => hpkg_nv ((hiff pkg).mpr hc)
                refine ⟨?_, ?_, ?_⟩
                · show ((sb.entries ++ [(pkg, prio)]).map Prod.fst).Nodup
                  rw [List.map_append]
                  simp [List.nodup_append, hnd, hpkg_nid]
                · intro v
                  show v ∈ pkg :: sb.visited ↔ v ∈ (sb.entries ++ [(pkg, prio)]).map Prod.fst
                  rw [List.map_append, List.mem_append, List.mem_cons, hiff v]
                  simp only [List.map_cons, List.map_nil, List.mem_singleton]
                  tauto
                · show DepsOk g (sb.entries ++ [(pkg, prio)])
                  refine DepsOk.snoc _ _ hdeps ?_
                  intro dd hdd
                  exact (hiff dd).mp (hdone dd hdd)
    | many ds prio =>
      cases ds with
      | nil =>
        rw [visitT_many_nil] at h
        cases h
        exact ⟨fun v hv => hv, fun v hv => hv,
          fun _ => ⟨rfl, fun d hd => absurd hd (List.not_mem_nil d)⟩,
          fun hb => Bool.noConfusion hb, fun x hx => Or.inl hx, fun hInv => hInv⟩
      | cons d ds =>
        rw [visitT_many_cons] at h
        rcases hr : visitT g f (.one d prio) s with e | bs
        · rw [hr] at h
          exact absurd h (by simp)
        · obtain ⟨b1, sb⟩ := bs
          rw [hr] at h
          obtain ⟨hm1, hm2, hm3, hm5, hm9, hInvP⟩ := ih _ _ _ _ hr
          cases b1
          · simp only [] at h
            cases h
            refine ⟨fun v hv => hm1 v hv, fun v hv => hm2 v hv, fun hb => Bool.noConfusion hb,
              fun _ => hm5 rfl, fun x hx => hm9 x hx, fun hInv => hInvP hInv⟩
          · simp only [] at h
            obtain ⟨hn1, hn2, hn3, hn5, hn9, hInvQ⟩ := ih _ _ _ _ h
            obtain ⟨hb_eq, hdone1⟩ := hm3 rfl
            refine ⟨fun v hv => hn1 v (hm1 v hv), fun v hv => hn2 v (hm2 v hv),
              ?_, ?_, ?_, fun hInv => hInvQ (hInvP hInv)⟩
            · intro hb
              obtain ⟨hv2, hdone2⟩ := hn3 hb
              refine ⟨hv2.trans hb_eq, ?_⟩
              intro x hx
              rcases List.mem_cons.mp hx with rfl | hx2
              · exact hn1 _ hdone1
              · exact hdone2 x hx2
            · intro hb
              obtain ⟨c, hc1, hc2⟩ := hn5 hb
              exact ⟨c, hc1, hb_eq ▸ hc2⟩
            · intro x hx
              rcases hn9 x hx with h1 | h1
              · exact hm9 x h1
              · exact Or.inr (fun hxs => h1 (hb_eq ▸ hxs))

theorem visitT_error_shape (g : List Pkg) :
    ∀ (fuel : Nat) (t : Task) (s : VisitSt) (e : RunErr), visitT g fuel t s = .error e →
      e = .fuelOut
      ∨ ∃ info, e = .dependencyCycle ("dependency cycle [-> " ++ info ++ " ->]") := by
  intro fuel
  induction fuel with
  | zero =>
    intro t s e h
    rw [visitT_zero] at h
    exact Or.inl (Except.error.inj h).symm
  | succ f ih =>
    intro t s e h
    cases t with
    | one pkg prio =>
      rw [visitT_one] at h
      by_cases hvd : pkg ∈ s.visited
      · rw [if_pos hvd] at h
        exact absurd h (by simp)
      · rw [if_neg hvd] at h
        by_cases hvg : pkg ∈ s.visiting
        · rw [if_pos hvg] at h
          exact absurd h (by simp)
        · rw [if_neg hvg] at h
          rcases hr : visitT g f (.many (downs g pkg) (prio + 1))
              { s with visiting := pkg :: s.visiting } with e0 | bs
          · rw [hr] at h
            exact (Except.error.inj h) ▸ ih _ _ _ hr
          · obtain ⟨b1, sb⟩ := bs
            rw [hr] at h
            cases b1
            · simp only [] at h
              by_cases hcs : sb.cycleStart = some pkg
              · rw [if_pos hcs] at h
                exact Or.inr ⟨sb.cycleInfo, (Except.error.inj h).symm⟩
              · rw [if_neg hcs] at h
                exact absurd h (by simp)
            · exact absurd h (by simp)
    | many ds prio =>
      cases ds with
      | nil =>
        rw [visitT_many_nil] at h
        exact absurd h (by simp)
      | cons d ds =>
        rw [visitT_many_cons] at h
        rcases hr : visitT g f (.one d prio) s with e0 | bs
        · rw [hr] at h
          exact (Except.error.inj h) ▸ ih _ _ _ hr
        · obtain ⟨b1, sb⟩ := bs
          rw [hr] at h
          cases b1
          · exact absurd h (by simp)
          · simp only [] at h
            exact ih _ _ _ h

theorem freeCount_le (n : Nat) (s : VisitSt) : freeCount n s ≤ n := by
  calc freeCount n s ≤ (Finset.range n).card := Finset.card_filter_le _ _
    _ = n := Finset.card_range n

theorem freeCount_mono (n : Nat) (s s2 : VisitSt)
    (h : ∀ v, v ∈ s.visited ∨ v ∈ s.visiting → v ∈ s2.visited ∨ v ∈ s2.visiting) :
    freeCount n s2 ≤ freeCount n s := by
  apply Finset.card_le_card
  intro v hv
  rw [Finset.mem_filter] at hv ⊢
  refine ⟨hv.1, ?_, ?_⟩
  · intro hc
    rcases h v (Or.inl hc) with h2 | h2
    · exact hv.2.1 h2
    · exact hv.2.2 h2
  · intro hc
    rcases h v (Or.inr hc) with h2 | h2
    · exact hv.2.1 h2
    · exact hv.2.2 h2

theorem freeCount_insert (n : Nat) (s : VisitSt) (pkg : Nat) (hn : pkg < n)
    (hv : pkg ∉ s.visited) (hg : pkg ∉ s.visiting) :
    freeCount n { s with visiting := pkg :: s.visiting } + 1 = freeCount n s := by
  have hset : (Finset.range n).filter
        (fun v => v ∉ ({ s with visiting := pkg :: s.visiting } : VisitSt).visited
          ∧ v ∉ ({ s with visiting := pkg :: s.visiting } : VisitSt).visiting)
      = ((Finset.range n).filter (fun v => v ∉ s.visited ∧ v ∉ s.visiting)).erase pkg := by
    ext v
    simp only [Finset.mem_filter, Finset.mem_erase, Finset.mem_range, List.mem_cons]
    constructor
    · intro ⟨h1, h2, h3⟩
      exact ⟨fun hc => h3 (Or.inl hc), h1, h2, fun hc => h3 (Or.inr hc)⟩
    · intro ⟨h1, h2, h3, h4⟩
      exact ⟨h2, h3, fun hc => hc.elim h1 h4⟩
  have hmem : pkg ∈ (Finset.range n).filter (fun v => v ∉ s.visited ∧ v ∉ s.visiting) := by
    simp [Finset.mem_filter, Finset.mem_range, hn, hv, hg]
  unfold freeCount
  rw [hset, Finset.card_erase_of_mem hmem]
  have : 0 < ((Finset.range n).filter (fun v => v ∉ s.visited ∧ v ∉ s.visiting)).card :=
    Finset.card_pos.mpr ⟨pkg, hmem⟩
  omega

theorem le_maxDeg (g : List Pkg) : ∀ pk ∈ g, pk.downstream.length ≤ maxDeg g := by
  induction g with
  | nil => intro pk h; cases h
  | cons p t ih =>
    intro pk h
    rcases List.mem_cons.mp h with rfl | h2
    · exact le_max_left _ _
    · exact le_trans (ih pk h2) (le_max_right _ _)

theorem mem_of_getElemQ (g : List Pkg) (p : Nat) (pk : Pkg) (hp : g[p]? = some pk) :
    pk ∈ g := by
  obtain ⟨hlt, heq⟩ := List.getElem?_eq_some.mp hp
  exact heq ▸ List.getElem_mem hlt

theorem downs_length_le (g : List Pkg) (p : Nat) : (downs g p).length ≤ maxDeg g := by
  rw [downs]
  cases hp : g[p]? with
  | none => simp
  | some pk =>
    show pk.downstream.length ≤ maxDeg g
    exact le_maxDeg g pk (mem_of_getElemQ g p pk hp)

theorem downs_valid (g : List Pkg) (hwf : Wf g) (p : Nat) :
    ∀ d ∈ downs g p, d < g.length := by
  intro d hd
  rw [downs] at hd
  cases hp : g[p]? with
  | none => rw [hp] at hd; simp at hd
  | some pk =>
    rw [hp] at hd
    have hd2 : d ∈ pk.downstream := hd
    exact hwf pk (mem_of_getElemQ g p pk hp) d hd2

theorem visitT_no_fuelOut (g : List Pkg) (hwf : Wf g) :
    ∀ (fuel : Nat) (t : Task) (s : VisitSt), TaskValid g.length t →
      fuelNeed g.length (maxDeg g) s t ≤ fuel → visitT g fuel t s ≠ .error .fuelOut := by
  intro fuel
  induction fuel with
  | zero =>
    intro t s hval hfn
    exfalso
    cases t with
    | one pkg prio => simp [fuelNeed] at hfn
    | many ds prio => simp [fuelNeed] at hfn
  | succ f ih =>
    intro t s hval hfn
    cases t with
    | one pkg prio =>
      rw [visitT_one]
      by_cases hvd : pkg ∈ s.visited
      · rw [if_pos hvd]; simp
      · rw [if_neg hvd]
        by_cases hvg : pkg ∈ s.visiting
        · rw [if_pos hvg]; simp
        · rw [if_neg hvg]
          have hn : pkg < g.length := hval
          have hfree := freeCount_insert g.length s pkg hn hvd hvg
          have hmul : freeCount g.length s * (maxDeg g + 2)
              = freeCount g.length { s with visiting := pkg :: s.visiting } * (maxDeg g + 2)
                + (maxDeg g + 2) := by
            rw [← hfree]; ring
          have hlen : (downs g pkg).length ≤ maxDeg g := downs_length_le g pkg
          have hfn2 : fuelNeed g.length (maxDeg g)
              { s with visiting := pkg :: s.visiting } (.many (downs g pkg) (prio + 1)) ≤ f := by
            show 1 + (downs g pkg).length
              + freeCount g.length { s with visiting := pkg :: s.visiting } * (maxDeg g + 2) ≤ f
            have hfn3 : 1 + freeCount g.length s * (maxDeg g + 2) ≤ f + 1 := hfn
            omega
          have hrec := ih (.many (downs g pkg) (prio + 1))
            { s with visiting := pkg :: s.visiting } (downs_valid g hwf pkg) hfn2
          rcases hr : visitT g f (.many (downs g pkg) (prio + 1))
              { s with visiting := pkg :: s.visiting } with e | bs
          · intro hcontra
            have he : e = RunErr.fuelOut := Except.error.inj hcontra
            exact hrec (he ▸ hr)
          · obtain ⟨b1, sb⟩ := bs
            cases b1
            · simp only []
              by_cases hcs : sb.cycleStart = some pkg
              · rw [if_pos hcs]; simp
              · rw [if_neg hcs]; simp
            · simp
    | many ds prio =>
      cases ds with
      | nil => rw [visitT_many_nil]; simp
      | cons d ds =>
        rw [visitT_many_cons]
        have hd : d < g.length := hval d (List.mem_cons_self d ds)
        have hfn1 : fuelNeed g.length (maxDeg g) s (.one d prio) ≤ f := by
          show 1 + freeCount g.length s * (maxDeg g + 2) ≤ f
          have hfn3 : 1 + (d :: ds).length + freeCount g.length s * (maxDeg g + 2) ≤ f + 1 := hfn
          simp only [List.length_cons] at hfn3
          omega
        have hrec1 := ih (.one d prio) s hd hfn1
        rcases hr : visitT g f (.one d prio) s with e | bs
        · intro hcontra
          have he : e = RunErr.fuelOut := Except.error.inj hcontra
          exact hrec1 (he ▸ hr)
        · obtain ⟨b1, sb⟩ := bs
          cases b1
          · simp
          · simp only []
            obtain ⟨_, hm2, _, _, _, _⟩ := visitT_main g f (.one d prio) s true sb hr
            have hfsb : freeCount g.length sb ≤ freeCount g.length s :=
              freeCount_mono g.length s sb hm2
            have hfn4 : fuelNeed g.length (maxDeg g) sb (.many ds prio) ≤ f := by
              show 1 + ds.length + freeCount g.length sb * (maxDeg g + 2) ≤ f
              have hfn3 : 1 + (d :: ds).length
                  + freeCount g.length s * (maxDeg g + 2) ≤ f + 1 := hfn
              simp only [List.length_cons] at hfn3
              have hmle : freeCount g.length sb * (maxDeg g + 2)
                  ≤ freeCount g.length s * (maxDeg g + 2) :=
                Nat.mul_le_mul_right _ hfsb
              omega
            exact ih (.many ds prio) sb
              (fun x hx => hval x (List.mem_cons_of_mem d hx)) hfn4

theorem depsOk_closed (g : List Pkg) :
    ∀ es : List (Nat × Nat), DepsOk g es →
      ∀ v ∈ es.map Prod.fst, ∀ d ∈ downs g v, d ∈ es.map Prod.fst := by
  intro es hok
  induction hok with
  | nil => intro v hv; cases hv
  | snoc es x hok hsub ih =>
    intro v hv d hd
    rw [List.map_append, List.mem_append] at hv ⊢
    rcases hv with hv | hv
    · exact Or.inl (ih v hv d hd)
    · simp only [List.map_cons, List.map_nil, List.mem_singleton] at hv
      exact Or.inl (hsub d (hv ▸ hd))

theorem depsOk_reach_closed (g : List Pkg) (es : List (Nat × Nat)) (hok : DepsOk g es)
    (v w : Nat) (hv : v ∈ es.map Prod.fst) (hr : Reaches g v w) : w ∈ es.map Prod.fst := by
  induction hr with
  | refl => exact hv
  | tail hyw hstep ih => exact depsOk_closed g es hok _ ih _ hstep

theorem depsOk_no_cycle (g : List Pkg) :
    ∀ es : List (Nat × Nat), DepsOk g es → (es.map Prod.fst).Nodup →
      ∀ c ∈ es.map Prod.fst, ∀ d ∈ downs g c, ¬ Reaches g d c := by
  intro es hok
  induction hok with
  | nil => intro _ c hc; cases hc
  | snoc es x hok hsub ih =>
    intro hnd c hc d hd hreach
    rw [List.map_append] at hnd
    simp only [List.map_cons, List.map_nil] at hnd
    have hnd2 : (es.map Prod.fst).Nodup := (List.nodup_append.mp hnd).1
    have hx_notin : x.1 ∉ es.map Prod.fst := by
      have hdisj := (List.nodup_append.mp hnd).2.2
      intro hc2
      exact hdisj hc2 (List.mem_singleton.mpr rfl)
    rw [List.map_append, List.mem_append] at hc
    rcases hc with hc | hc
    · exact ih hnd2 c hc d hd hreach
    · simp only [List.map_cons, List.map_nil, List.mem_singleton] at hc
      subst hc
      have hdm : d ∈ es.map Prod.fst := hsub d hd
      have hcm : x.1 ∈ es.map Prod.fst := depsOk_reach_closed g es hok d x.1 hdm hreach
      exact hx_notin hcm

theorem gatherGo_ok (g : List Pkg) :
    ∀ (req : List Nat) (i : Nat) (s sF : VisitSt),
      gatherGo g req i s = .ok sF → s.visiting = [] → Inv g s →
      (Inv g sF ∧ sF.visiting = []
        ∧ (∀ v, v ∈ s.visited → v ∈ sF.visited) ∧ ∀ p ∈ req, p ∈ sF.visited) := by
  intro req
  induction req with
  | nil =>
    intro i s sF h hvis hInv
    rw [gatherGo] at h
    cases h
    exact ⟨hInv, hvis, fun v hv => hv, fun p hp => absurd hp (List.not_mem_nil p)⟩
  | cons p ps ih =>
    intro i s sF h hvis hInv
    rw [gatherGo] at h
    rcases hr : visitT g (runFuel g) (.one p i) s with e | bs
    · rw [hr] at h
      exact absurd h (by simp)
    · obtain ⟨b, sb⟩ := bs
      rw [hr] at h
      obtain ⟨hm1, hm2, hm3, hm5, hm9, hInvP⟩ := visitT_main g _ _ _ _ _ hr
      cases b
      · obtain ⟨c, _, hc2⟩ := hm5 rfl
        rw [hvis] at hc2
        exact absurd hc2 (List.not_mem_nil c)
      · obtain ⟨hvis_eq, hdone⟩ := hm3 rfl
        obtain ⟨hInvF, hvisF, hmonoF, hreqF⟩ :=
          ih (i + 1) sb sF h (hvis_eq.trans hvis) (hInvP hInv)
        refine ⟨hInvF, hvisF, fun v hv => hmonoF v (hm1 v hv), ?_⟩
        intro q hq
        rcases List.mem_cons.mp hq with rfl | hq2
        · exact hmonoF q hdone
        · exact hreqF q hq2

theorem gatherGo_error_cycle (g : List Pkg) (hwf : Wf g) :
    ∀ (req : List Nat) (i : Nat) (s : VisitSt) (e : RunErr),
      gatherGo g req i s = .error e → (∀ p ∈ req, p < g.length) →
      ∃ info, e = .dependencyCycle ("dependency cycle [-> " ++ info ++ " ->]") := by
  intro req
  induction req with
  | nil =>
    intro i s e h _
    rw [gatherGo] at h
    exact absurd h (by simp)
  | cons p ps ih =>
    intro i s e h hval
    rw [gatherGo] at h
    rcases hr : visitT g (runFuel g) (.one p i) s with e0 | bs
    · rw [hr] at h
      have he : e0 = e := Except.error.inj h
      subst he
      have hfn : fuelNeed g.length (maxDeg g) s (.one p i) ≤ runFuel g := by
        show 1 + freeCount g.length s * (maxDeg g + 2) ≤ 1 + g.length * (maxDeg g + 2)
        have := Nat.mul_le_mul_right (maxDeg g + 2) (freeCount_le g.length s)
        omega
      have hnf := visitT_no_fuelOut g hwf (runFuel g) (.one p i) s
        (hval p (List.mem_cons_self p ps)) hfn
      rcases visitT_error_shape g (runFuel g) _ _ _ hr with hsh | hsh
      · exact absurd (hsh ▸ hr) hnf
      · exact hsh
    · obtain ⟨b, sb⟩ := bs
      rw [hr] at h
      exact ih (i + 1) sb e h (fun q hq => hval q (List.mem_cons_of_mem p hq))

/-- C2: for every well-formed graph and request list such that a dependency
cycle is reachable from a requested package, the priority-assignment traversal
of `Dispatcher.run` fails with a DependencyCycleError whose message has the
form `dependency cycle [-> … ->]`, and no build is started (the one-shot
pipeline produces no build events); on the concrete two-cycle `A→B, B→A` the
message is exactly `dependency cycle [-> A -> B ->]`. -/
theorem C2_reachable_cycle_raises_dependency_cycle_error (g : List Pkg) (req : List Nat)
    (hwf : Wf g) (hreq : ∀ r ∈ req, r < g.length)
    (hcyc : ∃ p ∈ req, ∃ c, Reaches g p c ∧ ∃ d ∈ downs g c, Reaches g d c) :
    (∃ info, schedule g req
        = .error (.dependencyCycle ("dependency cycle [-> " ++ info ++ " ->]")))
    ∧ (∀ outcomes act : Nat → Bool, (oneShot g req outcomes act).1 = [])
    ∧ schedule gCycleAB [0]
        = .error (.dependencyCycle "dependency cycle [-> A -> B ->]") := by
  have hInv0 : Inv g initSt := ⟨by simp [initSt], by simp [initSt], DepsOk.nil⟩
  rcases hg : gatherGo g req 0 initSt with e | sF
  · obtain ⟨info, he⟩ := gatherGo_error_cycle g hwf req 0 initSt e hg hreq
    have hsched : schedule g req = .error e := by
      rw [schedule, gatherEntries, hg]
      rfl
    refine ⟨⟨info, he ▸ hsched⟩, ?_, by decide⟩
    intro outcomes act
    rw [oneShot, hsched]
  · exfalso
    obtain ⟨hInvF, _, _, hreqF⟩ := gatherGo_ok g req 0 initSt sF hg rfl hInv0
    obtain ⟨hnd, hiff, hdeps⟩ := hInvF
    obtain ⟨p, hp, c, hrc, d, hd, hdc⟩ := hcyc
    have hpm : p ∈ sF.entries.map Prod.fst := (hiff p).mp (hreqF p hp)
    have hcm : c ∈ sF.entries.map Prod.fst := depsOk_reach_closed g _ hdeps p c hpm hrc
    exact depsOk_no_cycle g _ hdeps hnd c hcm d hd hdc

/-- Witness for C2 at the two-package cycle `A→B, B→A`. -/
theorem C2_witness :
    (Wf gCycleAB ∧ (∀ r ∈ [0], r < gCycleAB.length))
    ∧ (∃ info, schedule gCycleAB [0]
        = .error (.dependencyCycle ("dependency cycle [-> " ++ info ++ " ->]"))) :=
  ⟨⟨by decide, by decide⟩,
    (C2_reachable_cycle_raises_dependency_cycle_error gCycleAB [0] (by decide) (by decide)
      ⟨0, by decide, 0, Relation.ReflTransGen.refl, 1, by decide,
        Relation.ReflTransGen.single (by decide)⟩).1⟩

end RolldownWS
